/-
  Verification development for the eos block scheduler header
  (libraries/chain/include/eos/chain/block_schedule.hpp).

  The header defines the data model (pending_transaction, thread_schedule,
  cycle_schedule, block_schedule), the scope-extracting visitor, the two
  fuzzing meta-schedulers (shuffled_functor, lossy_functor) and declares the
  two production schedulers (by_threading_conflicts, by_cycling_conflicts)
  whose bodies live outside the provided sources; those two are modelled
  from the design document, as marked on their definitions.
-/
import Mathlib

/-! ## Data model

AccountName is an account identifier; we embed it as a natural number.
A Message carries the account referenced as the target (code) of the call.
SignedTransaction and GeneratedTransaction are the two payload variants;
each exposes a declared scope list and an embedded message list, which is
all the scheduler reads from them.  pending_transaction is the
static_variant of (pointers to) the two. -/

abbrev AccountName := Nat

structure Message where
  code : AccountName
  deriving DecidableEq, Repr

structure SignedTransaction where
  scope : List AccountName
  messages : List Message
  deriving DecidableEq, Repr

structure GeneratedTransaction where
  scope : List AccountName
  messages : List Message
  deriving DecidableEq, Repr

inductive pending_transaction where
  | signed : SignedTransaction → pending_transaction
  | generated : GeneratedTransaction → pending_transaction
  deriving DecidableEq, Repr

/-- Declared scope list of either variant (trx_p->scope). -/
def pending_transaction.scopeOf : pending_transaction → List AccountName
  | .signed t => t.scope
  | .generated t => t.scope

/-- Embedded message list of either variant (trx_p->messages). -/
def pending_transaction.messagesOf : pending_transaction → List Message
  | .signed t => t.messages
  | .generated t => t.messages

/-! ## Ordered unique sets (std::set AccountName)

std::set of Nat is embedded as a strictly sorted duplicate-free list;
setInsert is std::set::insert, setOfList is range construction. -/

/-- Insertion into a strictly sorted list, keeping it sorted and
duplicate-free (std::set::insert). -/
def setInsert (a : Nat) : List Nat → List Nat
  | [] => [a]
  | b :: l =>
    if a < b then a :: b :: l
    else if a = b then b :: l
    else b :: setInsert a l

/-- Construction of a std::set from a range of values. -/
def setOfList (l : List Nat) : List Nat :=
  l.foldl (fun s a => setInsert a s) []

theorem mem_setInsert (x a : Nat) (l : List Nat) :
    x ∈ setInsert a l ↔ x = a ∨ x ∈ l := by
  induction l with
  | nil => simp [setInsert]
  | cons b l ih =>
    by_cases h1 : a < b
    · simp [setInsert, h1]
    · by_cases h2 : a = b
      · subst h2
        simp [setInsert, h1]
      · simp [setInsert, h1, h2, ih]
        tauto

theorem sorted_setInsert (a : Nat) (l : List Nat) (h : l.Sorted (· < ·)) :
    (setInsert a l).Sorted (· < ·) := by
  induction l with
  | nil => simp [setInsert]
  | cons b l ih =>
    rw [List.sorted_cons] at h
    by_cases h1 : a < b
    · rw [setInsert]
      simp only [if_pos h1]
      rw [List.sorted_cons]
      refine ⟨?_, ?_⟩
      · intro x hx
        rcases List.mem_cons.1 hx with rfl | hx
        · exact h1
        · exact h1.trans (h.1 x hx)
      · rw [List.sorted_cons]
        exact h
    · by_cases h2 : a = b
      · rw [setInsert]
        simp only [if_neg h1, if_pos h2]
        rw [List.sorted_cons]
        exact h
      · rw [setInsert]
        simp only [if_neg h1, if_neg h2]
        rw [List.sorted_cons]
        refine ⟨?_, ih h.2⟩
        intro x hx
        rcases (mem_setInsert x a l).1 hx with rfl | hx
        · omega
        · exact h.1 x hx

theorem sorted_foldl_setInsert (l : List Nat) :
    ∀ init : List Nat, init.Sorted (· < ·) →
      (l.foldl (fun s a => setInsert a s) init).Sorted (· < ·) := by
  induction l with
  | nil => intro init h; simpa using h
  | cons a l ih =>
    intro init h
    exact ih (setInsert a init) (sorted_setInsert a init h)

theorem mem_foldl_setInsert (l : List Nat) :
    ∀ (init : List Nat) (x : Nat),
      x ∈ l.foldl (fun s a => setInsert a s) init ↔ x ∈ init ∨ x ∈ l := by
  induction l with
  | nil => intro init x; simp
  | cons a l ih =>
    intro init x
    rw [List.foldl_cons, ih, mem_setInsert]
    simp
    tauto

theorem sorted_setOfList (l : List Nat) : (setOfList l).Sorted (· < ·) :=
  sorted_foldl_setInsert l [] (by simp)

theorem mem_setOfList (l : List Nat) (x : Nat) : x ∈ setOfList l ↔ x ∈ l := by
  rw [setOfList, mem_foldl_setInsert]
  simp

/-! ## Scope extraction (scope_extracting_visitor)

The visitor body is one template, instantiated at both variants: it builds
a std::set from trx_p->scope and then inserts m.code for every message m. -/

/-- Shared template body of the visitor: unique_names(scope.begin, scope.end)
followed by unique_names.insert(m.code) for each message. -/
def scope_extract_impl (scope : List AccountName) (messages : List Message) :
    List AccountName :=
  messages.foldl (fun s m => setInsert m.code s) (setOfList scope)

/-- fc::visitor dispatch of the template body over the static_variant. -/
def scope_extracting_visitor : pending_transaction → List AccountName
  | .signed t => scope_extract_impl t.scope t.messages
  | .generated t => scope_extract_impl t.scope t.messages

theorem scope_extracting_visitor_eq_impl (t : pending_transaction) :
    scope_extracting_visitor t = scope_extract_impl t.scopeOf t.messagesOf := by
  cases t <;> rfl

theorem sorted_scope_extract_impl (scope : List AccountName)
    (messages : List Message) :
    (scope_extract_impl scope messages).Sorted (· < ·) := by
  rw [scope_extract_impl]
  have : ∀ (ms : List Message) (init : List Nat), init.Sorted (· < ·) →
      (ms.foldl (fun s m => setInsert m.code s) init).Sorted (· < ·) := by
    intro ms
    induction ms with
    | nil => intro init h; simpa using h
    | cons m ms ih =>
      intro init h
      exact ih (setInsert m.code init) (sorted_setInsert m.code init h)
  exact this messages (setOfList scope) (sorted_setOfList scope)

theorem mem_scope_extract_impl (scope : List AccountName)
    (messages : List Message) (x : AccountName) :
    x ∈ scope_extract_impl scope messages ↔
      x ∈ scope ∨ x ∈ messages.map Message.code := by
  rw [scope_extract_impl]
  have : ∀ (ms : List Message) (init : List Nat),
      x ∈ ms.foldl (fun s m => setInsert m.code s) init ↔
        x ∈ init ∨ x ∈ ms.map Message.code := by
    intro ms
    induction ms with
    | nil => intro init; simp
    | cons m ms ih =>
      intro init
      rw [List.foldl_cons, ih, mem_setInsert]
      simp
      tauto
  rw [this, mem_setOfList]

/-! ## Schedule data model (block_schedule.hpp) -/

structure thread_schedule where
  transactions : List pending_transaction
  deriving DecidableEq, Repr

abbrev cycle_schedule := List thread_schedule

structure block_schedule where
  cycles : List cycle_schedule
  deriving DecidableEq, Repr

/-- Modelled from the spec: the global_property_object header is not among
the provided sources; per the design document the properties object exposes
maxThreadsPerCycle and maxCyclesPerBlock resource limits. -/
structure global_property_object where
  maxThreadsPerCycle : Nat
  maxCyclesPerBlock : Nat
  deriving DecidableEq, Repr

/-- Modelled from the spec: ConfigurationError, raised for invalid
properties (zero max cycles or max threads), failing fast before
scheduling starts. -/
inductive ConfigError where
  | invalidProperties
  deriving DecidableEq, Repr

/-- Modelled from the spec: a scheduler result carries the produced
block_schedule together with the forcedConflict marker that flags a
schedule in which resource ceilings forced a conflicting placement. -/
structure sched_result where
  schedule : block_schedule
  forcedConflict : Bool
  deriving DecidableEq, Repr

/-! ## Conflict model -/

/-- Union of two account sets (std::set union by repeated insertion). -/
def setUnion (a b : List Nat) : List Nat :=
  b.foldl (fun s x => setInsert x s) a

/-- Cumulative scope of a thread: the union of the scope sets of all its
transactions. -/
def thread_scope (txs : List pending_transaction) : List AccountName :=
  txs.foldl (fun s tx => setUnion s (scope_extracting_visitor tx)) []

/-- Scope sets conflict iff their intersection is non-empty. -/
def conflicts (a b : List Nat) : Bool :=
  a.any (fun x => b.contains x)

/-- Number of shared accounts between two scope sets, used by the
least-conflicting fallback of the cycling scheduler. -/
def interCount (a b : List Nat) : Nat :=
  (a.filter (fun x => b.contains x)).length

/-! ## Greedy threading scheduler (by_threading_conflicts)

Modelled from the spec: the definition of by_threading_conflicts is only
declared in the provided header; the body below follows the design
document's algorithm for each transaction in input order: scan the current
(last) cycle's threads in creation order and place the transaction in the
first thread whose cumulative scope does not conflict with the
transaction's scope; otherwise open a new thread in the current cycle when
the thread count is below the configured maximum; otherwise close the
cycle and open a new cycle with a single new thread.  A properties object
with zero max threads or zero max cycles is rejected at entry as a
configuration error. -/

/-- Place a transaction in the first thread (creation order) of the cycle
whose cumulative scope does not conflict with the transaction's scope. -/
def placeInThreads (sc : List AccountName) (tx : pending_transaction) :
    List thread_schedule → Option (List thread_schedule)
  | [] => none
  | t :: ts =>
    if conflicts (thread_scope t.transactions) sc then
      (placeInThreads sc tx ts).map (fun ts2 => t :: ts2)
    else
      some ({ transactions := t.transactions ++ [tx] } :: ts)

/-- One step of the threading scheduler: state is (closed cycles, current
cycle). -/
def threading_step (maxThreads : Nat)
    (st : List cycle_schedule × cycle_schedule) (tx : pending_transaction) :
    List cycle_schedule × cycle_schedule :=
  let sc := scope_extracting_visitor tx
  match placeInThreads sc tx st.2 with
  | some cur => (st.1, cur)
  | none =>
    if st.2.length < maxThreads then
      (st.1, st.2 ++ [{ transactions := [tx] }])
    else
      (st.1 ++ [st.2], [{ transactions := [tx] }])

def block_schedule.by_threading_conflicts (transactions : List pending_transaction)
    (properties : global_property_object) : Except ConfigError sched_result :=
  if properties.maxThreadsPerCycle = 0 ∨ properties.maxCyclesPerBlock = 0 then
    .error .invalidProperties
  else
    let st := transactions.foldl (threading_step properties.maxThreadsPerCycle) ([], [])
    .ok { schedule := { cycles := if st.2.isEmpty then st.1 else st.1 ++ [st.2] }
          forcedConflict := false }

/-! ## Greedy cycling scheduler (by_cycling_conflicts)

Modelled from the spec: the definition of by_cycling_conflicts is only
declared in the provided header; the body below follows the design
document's algorithm for each transaction in input order: search all
cycles from the most recent backward for a compatible (non-conflicting)
thread, preferring the most recent cycle; when none exists open a new
cycle with one new thread; when the cycle count has reached
maxCyclesPerBlock append to the least-conflicting thread of the last
cycle regardless of conflict and flag the schedule with the
forcedConflict marker. -/

/-- Search the cycles from the most recent (last) backward, placing the
transaction in the first compatible thread of the most recent cycle that
has one. -/
def placeFromBack (sc : List AccountName) (tx : pending_transaction) :
    List cycle_schedule → Option (List cycle_schedule)
  | [] => none
  | c :: cs =>
    match placeFromBack sc tx cs with
    | some cs2 => some (c :: cs2)
    | none => (placeInThreads sc tx c).map (fun c2 => c2 :: cs)

/-- Smallest conflict count against the given scope among the threads. -/
def minInter (sc : List AccountName) : List thread_schedule → Nat
  | [] => 0
  | [t] => interCount (thread_scope t.transactions) sc
  | t :: u :: us =>
    min (interCount (thread_scope t.transactions) sc) (minInter sc (u :: us))

/-- Append the transaction to the first thread attaining the least
conflict count with its scope. -/
def appendLeast (sc : List AccountName) (tx : pending_transaction) :
    List thread_schedule → List thread_schedule
  | [] => [{ transactions := [tx] }]
  | [t] => [{ transactions := t.transactions ++ [tx] }]
  | t :: u :: us =>
    if interCount (thread_scope t.transactions) sc ≤ minInter sc (u :: us) then
      { transactions := t.transactions ++ [tx] } :: u :: us
    else
      t :: appendLeast sc tx (u :: us)

/-- Forced placement into the least-conflicting thread of the last cycle. -/
def forceAppendLast (sc : List AccountName) (tx : pending_transaction) :
    List cycle_schedule → List cycle_schedule
  | [] => [[{ transactions := [tx] }]]
  | [c] => [appendLeast sc tx c]
  | c :: c2 :: cs => c :: forceAppendLast sc tx (c2 :: cs)

/-- One step of the cycling scheduler: state is (cycles, forced-conflict
flag). -/
def cycling_step (maxCycles : Nat)
    (st : List cycle_schedule × Bool) (tx : pending_transaction) :
    List cycle_schedule × Bool :=
  let sc := scope_extracting_visitor tx
  match placeFromBack sc tx st.1 with
  | some cs => (cs, st.2)
  | none =>
    if st.1.length < maxCycles then
      (st.1 ++ [[{ transactions := [tx] }]], st.2)
    else
      (forceAppendLast sc tx st.1, true)

def block_schedule.by_cycling_conflicts (transactions : List pending_transaction)
    (properties : global_property_object) : Except ConfigError sched_result :=
  if properties.maxThreadsPerCycle = 0 ∨ properties.maxCyclesPerBlock = 0 then
    .error .invalidProperties
  else
    let st := transactions.foldl (cycling_step properties.maxCyclesPerBlock) ([], false)
    .ok { schedule := { cycles := st.1 }, forcedConflict := st.2 }

/-! ## Schedule observations -/

/-- All transactions of a cycle, thread by thread in creation order. -/
def cycle_txs (c : cycle_schedule) : List pending_transaction :=
  c.flatMap (fun t => t.transactions)

/-- All transactions of a schedule, cycle by cycle. -/
def schedule_txs (s : block_schedule) : List pending_transaction :=
  s.cycles.flatMap cycle_txs

/-- Two scope sets are disjoint (boolean form). -/
def scopes_disjoint (a b : List Nat) : Bool :=
  a.all (fun x => !(b.contains x))

/-- Cross-thread disjointness within one cycle: the cumulative scopes of
any two distinct threads share no account. -/
def cycle_disjoint : cycle_schedule → Bool
  | [] => true
  | t :: ts =>
    ts.all (fun u => scopes_disjoint (thread_scope t.transactions)
      (thread_scope u.transactions)) && cycle_disjoint ts

/-- Disjointness of every cycle of the schedule. -/
def schedule_disjoint (s : block_schedule) : Bool :=
  s.cycles.all cycle_disjoint

/-! ## shuffled_functor

std::shuffle permutes the copied vector by the Fisher-Yates walk: for i
from n-1 down to 1 it swaps element i with element r(i), where r(i) is a
uniform draw in [0, i].  The random source (std::random_device seeding a
std::mt19937) is abstracted as the draw function r; the modulus keeps the
embedding total for arbitrary draws. -/

/-- Swap of two positions of a vector; indices beyond the length leave the
vector unchanged (std::swap through iterators stays in bounds here because
the walk only produces in-bounds indices). -/
def listSwap (l : List pending_transaction) (i j : Nat) : List pending_transaction :=
  if h : i < l.length ∧ j < l.length then
    (l.set i (l.get ⟨j, h.2⟩)).set j (l.get ⟨i, h.1⟩)
  else l

/-- Fisher-Yates walk of std::shuffle, counting i down from n-1. -/
def shuffleIter (r : Nat → Nat) : Nat → List pending_transaction → List pending_transaction
  | 0, l => l
  | i + 1, l => shuffleIter r i (listSwap l (i + 1) (r (i + 1) % (i + 2)))

/-- std::shuffle over the whole copied vector. -/
def shuffleList (r : Nat → Nat) (l : List pending_transaction) : List pending_transaction :=
  shuffleIter r (l.length - 1) l

/-- shuffled_functor::operator(): copy the transaction list, shuffle the
copy with a fresh random source, and delegate the shuffled copy to the
wrapped scheduler. -/
def shuffled_functor {α : Type} (r : Nat → Nat)
    (next : List pending_transaction → global_property_object → α)
    (transactions : List pending_transaction)
    (properties : global_property_object) : α :=
  next (shuffleList r transactions) properties

/-! ## lossy_functor

lossy_functor::operator() default-constructs an empty destination vector,
reserves capacity, and then runs std::copy_if with the destination's
begin() iterator as output.  copy_if assigns through that iterator for
every retained element; an assignment at an index not below the vector's
size is out of bounds.  The embedding makes the copy step total by
returning none exactly when such an out-of-bounds write occurs.  One
uniform draw in [0,1) is made per candidate transaction, abstracted as
the function u indexed by the candidate's position. -/

/-- Bounds-checked vector write: writing index i of a vector of size
below i + 1 is out of bounds and yields none. -/
def vecWrite (v : List pending_transaction) (i : Nat) (a : pending_transaction) :
    Option (List pending_transaction) :=
  if i < v.length then some (v.set i a) else none

/-- Retention test of lossy_functor: the transaction at draw index i is
kept iff its uniform draw u i is at least NUM / DEN. -/
def lossy_keep (u : Nat → ℚ) (num den : Nat) (i : Nat) : Bool :=
  decide ((num : ℚ) / (den : ℚ) ≤ u i)

/-- std::copy_if writing through a raw destination iterator: src is the
remaining source, i the next draw index, dst the destination vector and w
the write position reached by the output iterator. -/
def copy_if_begin (keep : Nat → Bool) :
    List pending_transaction → Nat → List pending_transaction → Nat →
      Option (List pending_transaction)
  | [], _, dst, _ => some dst
  | x :: xs, i, dst, w =>
    if keep i then
      match vecWrite dst w x with
      | some dst2 => copy_if_begin keep xs (i + 1) dst2 (w + 1)
      | none => none
    else
      copy_if_begin keep xs (i + 1) dst w

/-- lossy_functor::operator(): run the copy step starting from the empty
default-constructed vector (reserve changes capacity, not size) and
delegate the result to the wrapped scheduler; none reports the
out-of-bounds write of the copy step. -/
def lossy_functor {α : Type} (keep : Nat → Bool)
    (next : List pending_transaction → global_property_object → α)
    (transactions : List pending_transaction)
    (properties : global_property_object) : Option α :=
  (copy_if_begin keep transactions 0 [] 0).map (fun c => next c properties)

/-- Retained subsequence the specification describes: the transactions
whose draw passes the retention test, in input order. -/
def retainedSubseq (keep : Nat → Bool) :
    List pending_transaction → Nat → List pending_transaction
  | [], _ => []
  | x :: xs, i =>
    if keep i then x :: retainedSubseq keep xs (i + 1)
    else retainedSubseq keep xs (i + 1)

/-! ## Reflected serialization (FC_REFLECT)

FC_REFLECT(thread_schedule, (transactions)) and
FC_REFLECT(block_schedule, (cycles)) expose a named-field object form;
vectors serialize as arrays and the reflected pending_transaction payload
is kept opaque. -/

/-- Serialized value tree produced by the fc reflection of the schedule
types. -/
inductive fcValue where
  | trx : pending_transaction → fcValue
  | arr : List fcValue → fcValue
  | obj : List (String × fcValue) → fcValue

/-- Reflected form of a thread_schedule: an object with the single field
named transactions. -/
def serialize_thread (t : thread_schedule) : fcValue :=
  .obj [("transactions", .arr (t.transactions.map fcValue.trx))]

/-- Reflected form of a block_schedule: an object with the single field
named cycles, an array of cycles, each an array of reflected threads. -/
def serialize_block (b : block_schedule) : fcValue :=
  .obj [("cycles", .arr (b.cycles.map (fun c => fcValue.arr (c.map serialize_thread))))]

/-- All-or-nothing decoding of a list of serialized values. -/
def decodeList {α : Type} (f : fcValue → Option α) :
    List fcValue → Option (List α)
  | [] => some []
  | v :: vs =>
    match f v, decodeList f vs with
    | some a, some rest => some (a :: rest)
    | _, _ => none

/-- Decoding of a reflected transaction payload. -/
def decode_trx : fcValue → Option pending_transaction
  | .trx t => some t
  | _ => none

/-- Decoding of a reflected thread_schedule. -/
def decode_thread : fcValue → Option thread_schedule
  | .obj [("transactions", .arr l)] =>
    (decodeList decode_trx l).map thread_schedule.mk
  | _ => none

/-- Decoding of a reflected cycle. -/
def decode_cycle : fcValue → Option cycle_schedule
  | .arr ts => decodeList decode_thread ts
  | _ => none

/-- Decoding of a reflected block_schedule. -/
def decode_block : fcValue → Option block_schedule
  | .obj [("cycles", .arr cs)] =>
    (decodeList decode_cycle cs).map block_schedule.mk
  | _ => none

/-! ## Concrete example transactions used by the evaluation theorems -/

def tx0 : pending_transaction := .signed { scope := [0], messages := [] }

def tx1 : pending_transaction := .signed { scope := [1], messages := [] }

def tx2 : pending_transaction := .signed { scope := [0, 2], messages := [] }

/-! ## Scope extraction claims -/

/-- C3: scope extraction returns the ordered, duplicate-free set equal to
the union of the declared scope list and the code account of every
embedded message; a transaction with empty scope and no messages yields
the empty set; extraction is a total function. -/
theorem scope_extraction_spec (t : pending_transaction) :
    (scope_extracting_visitor t).Sorted (· < ·) ∧
    (scope_extracting_visitor t).Nodup ∧
    (∀ x, x ∈ scope_extracting_visitor t ↔
        x ∈ t.scopeOf ∨ x ∈ t.messagesOf.map Message.code) ∧
    (t.scopeOf = [] → t.messagesOf = [] → scope_extracting_visitor t = []) := by
  rw [scope_extracting_visitor_eq_impl]
  refine ⟨sorted_scope_extract_impl _ _, (sorted_scope_extract_impl _ _).nodup,
    fun x => mem_scope_extract_impl _ _ x, ?_⟩
  intro hs hm
  rw [hs, hm]
  rfl

/-- Closed instance of scope_extraction_spec, discharging its inner
implications at a concrete transaction. -/
theorem scope_extraction_spec_witness :
    (scope_extracting_visitor tx2).Sorted (· < ·) ∧
    (scope_extracting_visitor tx2).Nodup ∧
    (∀ x, x ∈ scope_extracting_visitor tx2 ↔
        x ∈ tx2.scopeOf ∨ x ∈ tx2.messagesOf.map Message.code) ∧
    (tx2.scopeOf = [] → tx2.messagesOf = [] → scope_extracting_visitor tx2 = []) :=
  scope_extraction_spec tx2

/-- C8: scope extraction is a pure function of its input: the embedding
gives the visitor no state to read or write, so two invocations on equal
transactions return equal scope sets. -/
theorem scope_extraction_pure (t₁ t₂ : pending_transaction) (h : t₁ = t₂) :
    scope_extracting_visitor t₁ = scope_extracting_visitor t₂ := by
  rw [h]

/-- Closed instance of scope_extraction_pure at a concrete transaction. -/
theorem scope_extraction_pure_witness :
    scope_extracting_visitor tx0 = scope_extracting_visitor tx0 :=
  scope_extraction_pure tx0 tx0 rfl

theorem scope_extract_impl_eq_codes (scope : List AccountName)
    (messages : List Message) :
    scope_extract_impl scope messages =
      (messages.map Message.code).foldl (fun s c => setInsert c s) (setOfList scope) := by
  rw [scope_extract_impl, List.foldl_map]

/-- C10: the visitor body is one template shared by both variants, so a
SignedTransaction and a GeneratedTransaction with equal declared scopes
and equal embedded message codes extract equal scope sets. -/
theorem scope_extraction_variant_agnostic (s : SignedTransaction)
    (g : GeneratedTransaction) (hs : s.scope = g.scope)
    (hm : s.messages.map Message.code = g.messages.map Message.code) :
    scope_extracting_visitor (.signed s) = scope_extracting_visitor (.generated g) := by
  show scope_extract_impl s.scope s.messages = scope_extract_impl g.scope g.messages
  rw [scope_extract_impl_eq_codes, scope_extract_impl_eq_codes, hs, hm]

/-- Closed instance of scope_extraction_variant_agnostic: a signed and a
generated transaction with the same scope and message codes. -/
theorem scope_extraction_variant_agnostic_witness :
    scope_extracting_visitor (.signed { scope := [3], messages := [{ code := 7 }] }) =
      scope_extracting_visitor (.generated { scope := [3], messages := [{ code := 7 }] }) :=
  scope_extraction_variant_agnostic
    { scope := [3], messages := [{ code := 7 }] }
    { scope := [3], messages := [{ code := 7 }] } rfl rfl

/-! ## Reflection claim -/

/-- Field names of a reflected object value. -/
def fcFields : fcValue → List String
  | .obj l => l.map Prod.fst
  | _ => []

theorem decodeList_map {α : Type} (f : α → fcValue) (g : fcValue → Option α)
    (h : ∀ a, g (f a) = some a) (l : List α) :
    decodeList g (l.map f) = some l := by
  induction l with
  | nil => rfl
  | cons a l ih => simp [decodeList, h, ih]

theorem decode_thread_serialize (t : thread_schedule) :
    decode_thread (serialize_thread t) = some t := by
  rw [serialize_thread, decode_thread,
    decodeList_map fcValue.trx decode_trx (fun a => rfl)]
  rfl

theorem decode_cycle_serialize (c : cycle_schedule) :
    decode_cycle (.arr (c.map serialize_thread)) = some c := by
  rw [decode_cycle, decodeList_map serialize_thread decode_thread decode_thread_serialize]

/-- C9: the reflected block_schedule exposes the single top-level field
named cycles, each reflected thread entry exposes the single field named
transactions, and the full cycle, thread, transaction nesting is
recoverable: decoding the serialized form returns the original schedule. -/
theorem reflected_schedule_nesting (b : block_schedule) :
    fcFields (serialize_block b) = ["cycles"] ∧
    (∀ t : thread_schedule, fcFields (serialize_thread t) = ["transactions"]) ∧
    decode_block (serialize_block b) = some b := by
  refine ⟨rfl, fun t => rfl, ?_⟩
  rw [serialize_block, decode_block,
    decodeList_map (fun c => fcValue.arr (c.map serialize_thread)) decode_cycle
      decode_cycle_serialize]
  rfl

/-! ## Shuffle claim -/

theorem get_cons_set_perm (xs : List pending_transaction) :
    ∀ (k : Nat) (hk : k < xs.length) (c : pending_transaction),
      (xs.get ⟨k, hk⟩ :: xs.set k c).Perm (c :: xs) := by
  induction xs with
  | nil => intro k hk c; simp at hk
  | cons y ys ih =>
    intro k hk c
    cases k with
    | zero =>
      simp only [List.get, List.set]
      exact List.Perm.swap c y ys
    | succ m =>
      simp only [List.get, List.set]
      have hm : m < ys.length := by simpa using hk
      exact (List.Perm.swap y (ys.get ⟨m, hm⟩) (ys.set m c)).trans
        ((List.Perm.cons y (ih m hm c)).trans (List.Perm.swap c y ys))

theorem set_set_swap_perm :
    ∀ (l : List pending_transaction) (i j : Nat) (hi : i < l.length)
      (hj : j < l.length),
      ((l.set i (l.get ⟨j, hj⟩)).set j (l.get ⟨i, hi⟩)).Perm l := by
  intro l
  induction l with
  | nil => intro i j hi hj; simp at hi
  | cons x xs ih =>
    intro i j hi hj
    cases i with
    | zero =>
      cases j with
      | zero => simp
      | succ k =>
        have hk : k < xs.length := by simpa using hj
        simp only [List.get, List.set]
        exact get_cons_set_perm xs k hk x
    | succ m =>
      have hm : m < xs.length := by simpa using hi
      cases j with
      | zero =>
        simp only [List.get, List.set]
        exact get_cons_set_perm xs m hm x
      | succ k =>
        have hk : k < xs.length := by simpa using hj
        simp only [List.get, List.set]
        exact List.Perm.cons x (ih m k hm hk)

theorem listSwap_perm (l : List pending_transaction) (i j : Nat) :
    (listSwap l i j).Perm l := by
  rw [listSwap]
  split
  case isTrue h => exact set_set_swap_perm l i j h.1 h.2
  case isFalse h => exact List.Perm.refl l

theorem shuffleIter_perm (r : Nat → Nat) :
    ∀ (n : Nat) (l : List pending_transaction), (shuffleIter r n l).Perm l := by
  intro n
  induction n with
  | zero => intro l; exact List.Perm.refl l
  | succ i ih =>
    intro l
    exact (ih (listSwap l (i + 1) (r (i + 1) % (i + 2)))).trans
      (listSwap_perm l (i + 1) (r (i + 1) % (i + 2)))

/-- C6: shuffled_functor shuffles a copy of the transaction list — the
delegated list is a permutation of the input for every random stream —
and the returned schedule is exactly what the wrapped scheduler returns
on that shuffled copy. -/
theorem shuffled_delegates_permutation {α : Type} (r : Nat → Nat)
    (next : List pending_transaction → global_property_object → α)
    (transactions : List pending_transaction)
    (properties : global_property_object) :
    (shuffleList r transactions).Perm transactions ∧
    shuffled_functor r next transactions properties =
      next (shuffleList r transactions) properties :=
  ⟨shuffleIter_perm r (transactions.length - 1) transactions, rfl⟩

/-! ## Lossy claims

The copy step of lossy_functor writes every retained transaction through
the begin() iterator of the empty destination vector, so the first
retained transaction already writes out of bounds: the vector was only
reserved, never resized. -/

/-- C4: at a drop ratio of 0 / 1 every transaction is retained, so the
specified delegated list is the whole input; the embedded copy step of
lossy_functor instead hits its out-of-bounds branch and never delegates
the retained subsequence. -/
theorem lossy_delegation_diverges :
    retainedSubseq (lossy_keep (fun _ => (1 : ℚ) / 2) 0 1) [tx0] 0 = [tx0] ∧
    lossy_functor (lossy_keep (fun _ => (1 : ℚ) / 2) 0 1)
      (fun transactions _ => transactions) [tx0] ⟨1, 1⟩ = none := by
  constructor
  · simp [retainedSubseq, lossy_keep]
  · simp [lossy_functor, copy_if_begin, lossy_keep, vecWrite]

/-- C5: the copy step of lossy_functor reaches the out-of-bounds branch
of the total embedding on a concrete input with two retained
transactions and drop ratio 1 / 2. -/
theorem lossy_copy_out_of_bounds :
    copy_if_begin (lossy_keep (fun _ => (3 : ℚ) / 4) 1 2) [tx0, tx1] 0 [] 0 = none := by
  simp [copy_if_begin, lossy_keep, vecWrite]
  norm_num

/-! ## Disjointness claim -/

/-- C1: the threading scheduler, modelled from the spec, places a
transaction into the first thread of the current cycle whose own
cumulative scope does not conflict — without checking the other threads —
so two transactions sharing account 0 end up in two sibling threads of
cycle 0 with intersecting scope unions while no forced-conflict marker is
raised, contradicting the cross-thread disjointness invariant. -/
theorem threading_disjointness_violation :
    block_schedule.by_threading_conflicts [tx0, tx2] { maxThreadsPerCycle := 2, maxCyclesPerBlock := 2 } =
      .ok { schedule := { cycles := [[{ transactions := [tx0] }, { transactions := [tx2] }]] }
            forcedConflict := false } ∧
    schedule_disjoint { cycles := [[{ transactions := [tx0] }, { transactions := [tx2] }]] } = false := by
  constructor
  · rfl
  · rfl

/-! ## Coverage claim -/

theorem cycle_txs_cons (t : thread_schedule) (ts : List thread_schedule) :
    cycle_txs (t :: ts) = t.transactions ++ cycle_txs ts := rfl

theorem placeInThreads_txs (sc : List AccountName) (tx : pending_transaction) :
    ∀ (ts ts' : List thread_schedule), placeInThreads sc tx ts = some ts' →
      (cycle_txs ts').Perm (tx :: cycle_txs ts) := by
  intro ts
  induction ts with
  | nil => intro ts' h; simp [placeInThreads] at h
  | cons t ts ih =>
    intro ts' h
    rw [placeInThreads] at h
    by_cases hc : conflicts (thread_scope t.transactions) sc
    · rw [if_pos hc] at h
      cases he : placeInThreads sc tx ts with
      | none => rw [he] at h; simp at h
      | some ts2 =>
        rw [he] at h
        simp at h
        subst h
        rw [cycle_txs_cons, cycle_txs_cons]
        exact (List.Perm.append_left t.transactions (ih ts2 he)).trans List.perm_middle
    · rw [if_neg hc] at h
      cases h
      rw [cycle_txs_cons, cycle_txs_cons]
      simp only [List.append_assoc]
      exact List.perm_middle

/-- Generic accumulation lemma: a step that appends exactly one
transaction to the observed contents yields a fold that appends the whole
input. -/
theorem foldl_step_perm {σ : Type} (obs : σ → List pending_transaction)
    (step : σ → pending_transaction → σ)
    (hstep : ∀ st tx, (obs (step st tx)).Perm (obs st ++ [tx])) :
    ∀ (T : List pending_transaction) (st : σ),
      (obs (T.foldl step st)).Perm (obs st ++ T) := by
  intro T
  induction T with
  | nil => intro st; simp
  | cons tx T ih =>
    intro st
    rw [List.foldl_cons]
    have h2 : (obs (step st tx) ++ T).Perm ((obs st ++ [tx]) ++ T) :=
      List.Perm.append_right T (hstep st tx)
    have h3 := (ih (step st tx)).trans h2
    simpa [List.append_assoc] using h3

/-- Contents of the threading scheduler state. -/
def threading_txs (st : List cycle_schedule × cycle_schedule) :
    List pending_transaction :=
  st.1.flatMap cycle_txs ++ cycle_txs st.2

theorem threading_step_txs (m : Nat) (st : List cycle_schedule × cycle_schedule)
    (tx : pending_transaction) :
    (threading_txs (threading_step m st tx)).Perm (threading_txs st ++ [tx]) := by
  obtain ⟨done, cur⟩ := st
  rw [threading_step]
  cases he : placeInThreads (scope_extracting_visitor tx) tx cur with
  | some cur2 =>
    simp only [he, threading_txs]
    refine ((List.Perm.append_left _ (placeInThreads_txs _ tx cur cur2 he)).trans
      List.perm_middle).trans ?_
    exact (List.perm_append_singleton tx _).symm
  | none =>
    simp only [he]
    by_cases hl : cur.length < m
    · rw [if_pos hl]
      simp [threading_txs, cycle_txs, List.flatMap_append, List.append_assoc]
    · rw [if_neg hl]
      simp [threading_txs, cycle_txs, List.flatMap_append, List.append_assoc]

theorem threading_result_txs (st : List cycle_schedule × cycle_schedule) :
    schedule_txs { cycles := if st.2.isEmpty then st.1 else st.1 ++ [st.2] } =
      threading_txs st := by
  obtain ⟨done, cur⟩ := st
  cases cur with
  | nil => simp [schedule_txs, threading_txs, cycle_txs]
  | cons t ts => simp [schedule_txs, threading_txs, cycle_txs, List.flatMap_append]

theorem placeFromBack_txs (sc : List AccountName) (tx : pending_transaction) :
    ∀ (cs cs' : List cycle_schedule), placeFromBack sc tx cs = some cs' →
      (cs'.flatMap cycle_txs).Perm (tx :: cs.flatMap cycle_txs) := by
  intro cs
  induction cs with
  | nil => intro cs' h; simp [placeFromBack] at h
  | cons c cs ih =>
    intro cs' h
    rw [placeFromBack] at h
    cases he : placeFromBack sc tx cs with
    | some cs2 =>
      rw [he] at h
      cases h
      simp only [List.flatMap_cons]
      exact (List.Perm.append_left (cycle_txs c) (ih cs2 he)).trans List.perm_middle
    | none =>
      rw [he] at h
      cases hp : placeInThreads sc tx c with
      | none => rw [hp] at h; simp at h
      | some c2 =>
        rw [hp] at h
        simp only [Option.map_some] at h
        cases h
        simp only [List.flatMap_cons]
        exact List.Perm.append_right (cs.flatMap cycle_txs)
          (placeInThreads_txs sc tx c c2 hp)

theorem appendLeast_txs (sc : List AccountName) (tx : pending_transaction) :
    ∀ ts : List thread_schedule,
      (cycle_txs (appendLeast sc tx ts)).Perm (tx :: cycle_txs ts) := by
  intro ts
  induction ts with
  | nil => simp [appendLeast, cycle_txs]
  | cons t ts ih =>
    cases ts with
    | nil =>
      simp only [appendLeast, cycle_txs_cons]
      simp [cycle_txs]
    | cons u us =>
      rw [appendLeast]
      by_cases hle : interCount (thread_scope t.transactions) sc ≤ minInter sc (u :: us)
      · rw [if_pos hle]
        rw [cycle_txs_cons, cycle_txs_cons]
        simp only [List.append_assoc]
        exact List.perm_middle
      · rw [if_neg hle]
        rw [cycle_txs_cons, cycle_txs_cons]
        exact (List.Perm.append_left t.transactions ih).trans List.perm_middle

theorem forceAppendLast_txs (sc : List AccountName) (tx : pending_transaction) :
    ∀ cs : List cycle_schedule,
      ((forceAppendLast sc tx cs).flatMap cycle_txs).Perm
        (tx :: cs.flatMap cycle_txs) := by
  intro cs
  induction cs with
  | nil => simp [forceAppendLast, cycle_txs]
  | cons c cs ih =>
    cases cs with
    | nil =>
      simp only [forceAppendLast, List.flatMap_cons, List.flatMap_nil,
        List.append_nil]
      simpa using appendLeast_txs sc tx c
    | cons c2 cs2 =>
      rw [forceAppendLast]
      simp only [List.flatMap_cons]
      exact (List.Perm.append_left (cycle_txs c) ih).trans List.perm_middle

/-- Contents of the cycling scheduler state. -/
def cycling_txs (st : List cycle_schedule × Bool) : List pending_transaction :=
  st.1.flatMap cycle_txs

theorem cycling_step_txs (m : Nat) (st : List cycle_schedule × Bool)
    (tx : pending_transaction) :
    (cycling_txs (cycling_step m st tx)).Perm (cycling_txs st ++ [tx]) := by
  obtain ⟨cs, flag⟩ := st
  rw [cycling_step]
  cases he : placeFromBack (scope_extracting_visitor tx) tx cs with
  | some cs2 =>
    simp only [he, cycling_txs]
    exact (placeFromBack_txs _ tx cs cs2 he).trans
      (List.perm_append_singleton tx _).symm
  | none =>
    simp only [he]
    by_cases hl : cs.length < m
    · rw [if_pos hl]
      simp [cycling_txs, cycle_txs, List.flatMap_append]
    · rw [if_neg hl]
      simp only [cycling_txs]
      exact (forceAppendLast_txs _ tx cs).trans
        (List.perm_append_singleton tx _).symm

/-- C2: with valid properties both schedulers succeed and the multiset of
transactions across all cycle and thread slots of the produced schedule
is exactly the input list: nothing is duplicated, nothing is dropped. -/
theorem schedulers_cover_transactions (T : List pending_transaction)
    (P : global_property_object) (h1 : P.maxThreadsPerCycle ≠ 0)
    (h2 : P.maxCyclesPerBlock ≠ 0) :
    (block_schedule.by_threading_conflicts T P).isOk = true ∧
    (block_schedule.by_cycling_conflicts T P).isOk = true ∧
    (∀ r, block_schedule.by_threading_conflicts T P = .ok r →
       (schedule_txs r.schedule).Perm T) ∧
    (∀ r, block_schedule.by_cycling_conflicts T P = .ok r →
       (schedule_txs r.schedule).Perm T) := by
  have hcond : ¬(P.maxThreadsPerCycle = 0 ∨ P.maxCyclesPerBlock = 0) := by
    push_neg
    exact ⟨h1, h2⟩
  refine ⟨?_, ?_, ?_, ?_⟩
  · rw [block_schedule.by_threading_conflicts, if_neg hcond]
    rfl
  · rw [block_schedule.by_cycling_conflicts, if_neg hcond]
    rfl
  · intro r h
    rw [block_schedule.by_threading_conflicts, if_neg hcond] at h
    cases h
    rw [threading_result_txs]
    have := foldl_step_perm threading_txs
      (threading_step P.maxThreadsPerCycle)
      (threading_step_txs P.maxThreadsPerCycle) T ([], [])
    simpa [threading_txs, cycle_txs] using this
  · intro r h
    rw [block_schedule.by_cycling_conflicts, if_neg hcond] at h
    cases h
    show (schedule_txs { cycles := (T.foldl (cycling_step P.maxCyclesPerBlock) ([], false)).1 }).Perm T
    have := foldl_step_perm cycling_txs
      (cycling_step P.maxCyclesPerBlock)
      (cycling_step_txs P.maxCyclesPerBlock) T ([], false)
    simpa [cycling_txs, schedule_txs] using this

/-- Closed instance of schedulers_cover_transactions at a concrete input,
discharging its hypotheses and evaluating the conclusion. -/
theorem schedulers_cover_transactions_witness :
    ((block_schedule.by_threading_conflicts [tx0, tx1, tx2]
        { maxThreadsPerCycle := 2, maxCyclesPerBlock := 2 }).isOk = true ∧
     (block_schedule.by_cycling_conflicts [tx0, tx1, tx2]
        { maxThreadsPerCycle := 2, maxCyclesPerBlock := 2 }).isOk = true ∧
     (∀ r, block_schedule.by_threading_conflicts [tx0, tx1, tx2]
        { maxThreadsPerCycle := 2, maxCyclesPerBlock := 2 } = .ok r →
       (schedule_txs r.schedule).Perm [tx0, tx1, tx2]) ∧
     (∀ r, block_schedule.by_cycling_conflicts [tx0, tx1, tx2]
        { maxThreadsPerCycle := 2, maxCyclesPerBlock := 2 } = .ok r →
       (schedule_txs r.schedule).Perm [tx0, tx1, tx2])) :=
  schedulers_cover_transactions [tx0, tx1, tx2]
    { maxThreadsPerCycle := 2, maxCyclesPerBlock := 2 }
    (by decide) (by decide)

/-! ## Determinism claim -/

/-- C7: both schedulers are embedded as plain functions of the ordered
transaction list and the properties alone — no random source enters
either definition — so two invocations on the same pair return identical
results, and with valid properties both are total (they return a
schedule, never an error). -/
theorem schedulers_deterministic (T : List pending_transaction)
    (P : global_property_object) (h1 : P.maxThreadsPerCycle ≠ 0)
    (h2 : P.maxCyclesPerBlock ≠ 0) :
    block_schedule.by_threading_conflicts T P =
      block_schedule.by_threading_conflicts T P ∧
    block_schedule.by_cycling_conflicts T P =
      block_schedule.by_cycling_conflicts T P ∧
    (block_schedule.by_threading_conflicts T P).isOk = true ∧
    (block_schedule.by_cycling_conflicts T P).isOk = true := by
  have hcond : ¬(P.maxThreadsPerCycle = 0 ∨ P.maxCyclesPerBlock = 0) := by
    push_neg
    exact ⟨h1, h2⟩
  refine ⟨rfl, rfl, ?_, ?_⟩
  · rw [block_schedule.by_threading_conflicts, if_neg hcond]
    rfl
  · rw [block_schedule.by_cycling_conflicts, if_neg hcond]
    rfl

/-- Closed instance of schedulers_deterministic at a concrete input. -/
theorem schedulers_deterministic_witness :
    block_schedule.by_threading_conflicts [tx0, tx1] { maxThreadsPerCycle := 1, maxCyclesPerBlock := 1 } =
      block_schedule.by_threading_conflicts [tx0, tx1] { maxThreadsPerCycle := 1, maxCyclesPerBlock := 1 } ∧
    block_schedule.by_cycling_conflicts [tx0, tx1] { maxThreadsPerCycle := 1, maxCyclesPerBlock := 1 } =
      block_schedule.by_cycling_conflicts [tx0, tx1] { maxThreadsPerCycle := 1, maxCyclesPerBlock := 1 } ∧
    (block_schedule.by_threading_conflicts [tx0, tx1] { maxThreadsPerCycle := 1, maxCyclesPerBlock := 1 }).isOk = true ∧
    (block_schedule.by_cycling_conflicts [tx0, tx1] { maxThreadsPerCycle := 1, maxCyclesPerBlock := 1 }).isOk = true :=
  schedulers_deterministic [tx0, tx1] { maxThreadsPerCycle := 1, maxCyclesPerBlock := 1 }
    (by decide) (by decide)
